import Mathlib

/-!
Verification development for the job-title classification engine of `task3.py`.

The engine (normalizer, keyword matcher, fuzzy matcher, confidence aggregator)
is embedded shallowly: Python strings become `String`/`List Char`, the three
configuration dicts become insertion-ordered association lists, floats become
exact rationals `ℚ`, and each Python function becomes a Lean function of the
same name.  Wall-clock fields (`processing_time_ms`) and logging are outside
the model.  Python's `str.lower` is modelled as ASCII case folding (the spec
fixes ASCII folding), and the whitespace class as the six ASCII whitespace
characters; regex keyword search `re.search(rf'\b key \b', s)` is modelled as
literal whole-word search, which is faithful for keywords without regex
metacharacters (all default-table keywords are of this shape).

rapidfuzz's `process.extractOne` returns a `(match, score, index)` 3-tuple in
every version since 1.0, so the source's `matched_key, score =
fuzzy_match_result` raises `ValueError` whenever the fuzzy fallback succeeds
(best score ≥ 70); matching and classification are therefore `Except`-valued,
with the fuzzy-success branch an error.  The fuzzy-failure branch only indexes
`result[1]` and is unaffected.
-/

set_option maxRecDepth 100000

namespace Task3

/-- ASCII whitespace, as matched by Python's `str.split`, `str.strip` and `\s`. -/
def isPySpace (c : Char) : Bool :=
  c = ' ' || c = '\t' || c = '\n' || c = '\r' || c = '\x0b' || c = '\x0c'

/-- Word character for the regex word boundary `\b` (`[a-zA-Z0-9_]`). -/
def isWordChar (c : Char) : Bool :=
  c.isAlphanum || c = '_'

/-- Characters kept by `re.sub(r'[^a-zA-Z0-9\s]', '', title)` in `normalize_title`. -/
def isKeptChar (c : Char) : Bool :=
  ('a' ≤ c && c ≤ 'z') || ('A' ≤ c && c ≤ 'Z') || ('0' ≤ c && c ≤ '9') || isPySpace c

/-- ASCII case folding of a single character (`str.lower`). -/
def asciiLower (c : Char) : Char :=
  if 'A' ≤ c && c ≤ 'Z' then Char.ofNat (c.toNat + 32) else c

/-- Fuelled worker for `replaceAll`; `fuel ≥ s.length` makes it total scan of `s`. -/
def replaceAllF (pat rep : List Char) : Nat → List Char → List Char
  | 0, s => s
  | _ + 1, [] => []
  | fuel + 1, c :: rest =>
    if pat.isPrefixOf (c :: rest) then
      rep ++ replaceAllF pat rep fuel (rest.drop (pat.length - 1))
    else
      c :: replaceAllF pat rep fuel rest

/-- Python `s.replace(pat, rep)`: replace all non-overlapping occurrences, left to
right.  An empty pattern inserts `rep` before every character and at the end. -/
def replaceAll (pat rep s : List Char) : List Char :=
  if pat.isEmpty then rep ++ s.flatMap (fun c => c :: rep)
  else replaceAllF pat rep s.length s

/-- Python `s.lstrip()` on the whitespace class. -/
def dropLeadingWs (l : List Char) : List Char := l.dropWhile isPySpace

/-- Python `s.rstrip()` on the whitespace class. -/
def dropTrailingWs (l : List Char) : List Char := (l.reverse.dropWhile isPySpace).reverse

/-- Python `s.strip()`. -/
def stripChars (l : List Char) : List Char := dropTrailingWs (dropLeadingWs l)

/-- `normalize_title` from task3.py: lower-case, expand each alias by literal
substring replacement in table order, drop characters outside
`[a-zA-Z0-9\s]`, and strip surrounding whitespace. -/
def normalize_title (aliases : List (String × String)) (title : String) : String :=
  let lowered := title.data.map asciiLower
  let expanded := aliases.foldl (fun t ae => replaceAll ae.1.data ae.2.data t) lowered
  ⟨stripChars (expanded.filter isKeptChar)⟩

/-- Wordness of an optional character; the ends of the string count as non-word. -/
def wordOpt : Option Char → Bool
  | none => false
  | some c => isWordChar c

/-- The character sitting just before the position after `key` (used for the
closing `\b`): the last character of `key`, or for an empty key the character
before the match position. -/
def lastCharOr (prev : Option Char) (key : List Char) : Option Char :=
  match key.getLast? with
  | none => prev
  | some c => some c

/-- Does `\b{key}\b` match at the current position of `s`, where `prev` is the
character just before that position?  Both boundaries require a word/non-word
transition. -/
def boundaryMatchAt (key : List Char) (prev : Option Char) (s : List Char) : Bool :=
  key.isPrefixOf s
    && (wordOpt prev != wordOpt s.head?)
    && (wordOpt (lastCharOr prev key) != wordOpt (s.drop key.length).head?)

/-- Scan all positions of `s` (including the final empty suffix), tracking the
previous character. -/
def searchWholeWordAux (key : List Char) : Option Char → List Char → Bool
  | prev, [] => boundaryMatchAt key prev []
  | prev, c :: rest => boundaryMatchAt key prev (c :: rest) || searchWholeWordAux key (some c) rest

/-- `re.search(rf'\b{key}\b', s) is not None`, for a keyword `key` containing no
regex metacharacters (so the interpolated pattern is a literal whole-word
search). -/
def hasWholeWord (key s : List Char) : Bool := searchWholeWordAux key none s

/-- A configuration snapshot: the three tables loaded by `load_config`
(`functions`, `seniority`, `aliases`).  Python dicts are insertion-ordered, so
they are modelled as association lists in iteration order. -/
structure Config where
  functions : List (String × List (String × String))
  seniority : List (String × String)
  aliases : List (String × String)
deriving DecidableEq

/-- `get_default_mappings` from task3.py: the built-in default tables. -/
def get_default_mappings : Config where
  functions :=
    [("Marketing",
       [("growth", "Growth"),
        ("brand", "Brand Management"),
        ("paid media", "Performance Marketing"),
        ("content", "Content Marketing"),
        ("digital", "Digital Marketing")]),
     ("Sales",
       [("account", "Account Management"),
        ("business development", "Business Development"),
        ("sales development", "Sales Development")]),
     ("Engineering",
       [("frontend", "Frontend Development"),
        ("backend", "Backend Development"),
        ("fullstack", "Full Stack Development"),
        ("software", "Software Engineering")])]
  seniority :=
    [("intern", "Entry"),
     ("junior", "Entry"),
     ("associate", "Entry"),
     ("analyst", "Entry"),
     ("specialist", "Mid-Level"),
     ("manager", "Manager"),
     ("director", "Director"),
     ("vp", "VP"),
     ("chief", "C-Level"),
     ("cmo", "C-Level"),
     ("cto", "C-Level"),
     ("head", "Director"),
     ("lead", "Manager"),
     ("sr", "Senior"),
     ("senior", "Senior")]
  aliases :=
    [("dev", "developer"),
     ("eng", "engineer"),
     ("mgr", "manager")]

/-- Worker for `splitWs`: `cur` is the current run of non-space characters, reversed. -/
def splitWsAux : List Char → List Char → List (List Char)
  | cur, [] => if cur.isEmpty then [] else [cur.reverse]
  | cur, c :: rest =>
    if isPySpace c then
      if cur.isEmpty then splitWsAux [] rest else cur.reverse :: splitWsAux [] rest
    else splitWsAux (c :: cur) rest

/-- Python `s.split()`: split on runs of whitespace, discarding empty pieces. -/
def splitWs (s : List Char) : List (List Char) := splitWsAux [] s

/-- Python `set(tokens)`: drop duplicate tokens.  (Set iteration order is only
ever used below through sorting or through lengths, so first-occurrence order
is an adequate model.) -/
def dedupTokens (l : List (List Char)) : List (List Char) :=
  l.foldl (fun acc x => if acc.contains x then acc else acc ++ [x]) []

/-- Lexicographic order on strings by character code, as Python `<` on `str`. -/
def strLt : List Char → List Char → Bool
  | [], [] => false
  | [], _ :: _ => true
  | _ :: _, [] => false
  | a :: as, b :: bs =>
    if a.toNat < b.toNat then true
    else if b.toNat < a.toNat then false
    else strLt as bs

/-- Insert into an ascending list (used by `sortAsc`). -/
def insertAsc (x : List Char) : List (List Char) → List (List Char)
  | [] => [x]
  | y :: ys => if strLt x y then x :: y :: ys else y :: insertAsc x ys

/-- Python `sorted` on a list of distinct strings. -/
def sortAsc : List (List Char) → List (List Char)
  | [] => []
  | x :: xs => insertAsc x (sortAsc xs)

/-- Python `" ".join(words)`. -/
def joinSpace : List (List Char) → List Char
  | [] => []
  | [w] => w
  | w :: ws => w ++ ' ' :: joinSpace ws

/-- Cost structure making Levenshtein distance the InDel distance used by
rapidfuzz `fuzz.ratio` (substitution = one deletion plus one insertion). -/
def indelCost : Levenshtein.Cost Char Char Nat where
  delete _ := 1
  insert _ := 1
  substitute a b := if a = b then 0 else 2

/-- rapidfuzz InDel distance between two strings. -/
def indel (a b : List Char) : Nat := levenshtein indelCost a b

/-- rapidfuzz normalized similarity `100 - 100 * dist / lensum` (100 when
`lensum = 0`), on exact rationals. -/
def normSim (dist lensum : ℚ) : ℚ :=
  if lensum = 0 then 100 else 100 - 100 * dist / lensum

/-- rapidfuzz `fuzz.ratio`: normalized InDel similarity, scaled to 0–100. -/
def fuzzRatioScore (a b : List Char) : ℚ :=
  normSim (indel a b) ((a.length : ℚ) + (b.length : ℚ))

/-- rapidfuzz `fuzz.token_set_ratio s1 s2`: compare the sorted set differences
and the common-token core, returning the best of the three normalized
similarities; 100 when one token set contains the other, 0 when either token
set is empty. -/
def tokenSetScore (s1 s2 : List Char) : ℚ :=
  let tokensA := dedupTokens (splitWs s1)
  let tokensB := dedupTokens (splitWs s2)
  if tokensA.isEmpty || tokensB.isEmpty then 0
  else
    let intersect := tokensA.filter (fun t => tokensB.contains t)
    let diffAB := tokensA.filter (fun t => !tokensB.contains t)
    let diffBA := tokensB.filter (fun t => !tokensA.contains t)
    if !intersect.isEmpty && (diffAB.isEmpty || diffBA.isEmpty) then 100
    else
      let diffABjoined := joinSpace (sortAsc diffAB)
      let diffBAjoined := joinSpace (sortAsc diffBA)
      let abLen : ℚ := diffABjoined.length
      let baLen : ℚ := diffBAjoined.length
      let sectLen : ℚ := (joinSpace intersect).length
      let bsect : ℚ := if sectLen = 0 then 0 else 1
      let result := fuzzRatioScore diffABjoined diffBAjoined
      let sectABscore := normSim (bsect + abLen) (sectLen + (sectLen + bsect + abLen))
      let sectBAscore := normSim (bsect + baLen) (sectLen + (sectLen + bsect + baLen))
      max result (max sectABscore sectBAscore)

/-- Loop of `extractOne`: fold over the remaining choices, keeping the current
best `(choice, score, index)` triple; a later choice replaces the best only on
a strictly greater score, so the first choice achieving the maximal score
wins. -/
def extractOneAux (query : List Char) :
    Option (String × ℚ × ℕ) → ℕ → List String → Option (String × ℚ × ℕ)
  | best, _, [] => best
  | best, i, c :: cs =>
    let score := tokenSetScore query c.data
    extractOneAux query
      (match best with
       | none => some (c, score, i)
       | some b => if b.2.1 < score then some (c, score, i) else some b)
      (i + 1) cs

/-- rapidfuzz `process.extractOne(query, choices, scorer=fuzz.token_set_ratio)`:
the `(match, score, index)` triple of the first choice achieving the maximal
score; `None` only for an empty choices list. -/
def extractOne (query : List Char) (choices : List String) :
    Option (String × ℚ × ℕ) :=
  extractOneAux query none 0 choices

/-- `fuzzy_match` from task3.py: the `extractOne` result (a 3-tuple) if its
score `result[1]` reaches `min_score` (the source's default argument 70 is
passed explicitly by the callers below), otherwise `None`. -/
def fuzzy_match (title : List Char) (choices : List String) (min_score : ℚ) :
    Option (String × ℚ × ℕ) :=
  match extractOne title choices with
  | some r => if r.2.1 ≥ min_score then some r else none
  | none => none

/-- Insert into a descending list, after any earlier element with an equal key
(used by `sortDescBy`). -/
def insertDescBy {α : Type} (f : α → ℚ) (x : α) : List α → List α
  | [] => [x]
  | y :: ys => if f y ≤ f x then x :: y :: ys else y :: insertDescBy f x ys

/-- Stable descending sort by key, as Python `list.sort(key=…, reverse=True)`
(the output of a stable descending sort is unique, so any stable algorithm
models Python's). -/
def sortDescBy {α : Type} (f : α → ℚ) : List α → List α
  | [] => []
  | x :: xs => insertDescBy f x (sortDescBy f xs)

/-- A Python exception escaping the engine.  `valueError` is the
`ValueError: too many values to unpack (expected 2)` raised by the statement
`matched_key, score = fuzzy_match_result` in `match_with_confidence`, because
rapidfuzz's `process.extractOne` (any version ≥ 1.0) returns a
`(match, score, index)` 3-tuple, not the 2-tuple the source expects. -/
inductive PyErr where
  | valueError
deriving DecidableEq

instance {ε α : Type} [DecidableEq ε] [DecidableEq α] : DecidableEq (Except ε α) := fun x y =>
  match x, y with
  | .ok a, .ok b =>
    if h : a = b then isTrue (congrArg Except.ok h)
    else isFalse (fun hc => h (Except.ok.inj hc))
  | .error e, .error f =>
    if h : e = f then isTrue (congrArg Except.error h)
    else isFalse (fun hc => h (Except.error.inj hc))
  | .ok _, .error _ => isFalse (fun hc => Except.noConfusion hc)
  | .error _, .ok _ => isFalse (fun hc => Except.noConfusion hc)

/-- The exact whole-word candidates of the function axis of
`match_with_confidence(…, is_function=True)`: one `(function, sub_function
label, 1.0)` triple per hierarchy keyword occurring whole-word in the
normalized title, in table-iteration order. -/
def exact_function_matches (cfg : Config) (title : String) :
    List (String × String × ℚ) :=
  let normalized_title := (normalize_title cfg.aliases title).data
  cfg.functions.flatMap (fun fs =>
    (fs.2.filter (fun kv => hasWholeWord kv.1.data normalized_title)).map
      (fun kv => (fs.1, kv.2, (1 : ℚ))))

/-- `[k for sub in keywords.values() for k in sub.keys()]`: all sub-function
keywords, flattened in table-iteration order. -/
def all_sub_function_keywords (cfg : Config) : List String :=
  cfg.functions.flatMap (fun fs => fs.2.map (fun kv => kv.1))

/-- The candidate list built by `match_with_confidence(…, is_function=True)`:
the exact matches, or on an empty exact list the fuzzy fallback.  When
`fuzzy_match` succeeds, the source's `matched_key, score = fuzzy_match_result`
unpacks rapidfuzz's `(match, score, index)` 3-tuple into two names and raises
`ValueError`, so the fuzzy-success branch is an error, never a candidate
list. -/
def function_axis_candidates (cfg : Config) (title : String) :
    Except PyErr (List (String × String × ℚ)) :=
  if (exact_function_matches cfg title).isEmpty then
    match fuzzy_match (normalize_title cfg.aliases title).data
        (all_sub_function_keywords cfg) 70 with
    | some _ => .error .valueError
    | none => .ok []
  else .ok (exact_function_matches cfg title)

/-- `match_with_confidence(title, FUNCTION_HIERARCHY, is_function=True)`:
sort the candidates by confidence descending (stable) and return the first,
or `((None, None), 0.0)` when there is none; a `ValueError` raised while
building the candidates propagates. -/
def match_with_confidence_function (cfg : Config) (title : String) :
    Except PyErr ((Option String × Option String) × ℚ) :=
  match function_axis_candidates cfg title with
  | .error e => .error e
  | .ok cands =>
    match sortDescBy (fun m => m.2.2) cands with
    | [] => .ok ((none, none), 0)
    | m :: _ => .ok ((some m.1, some m.2.1), m.2.2)

/-- The exact whole-word candidates of the seniority axis of
`match_with_confidence` (`is_function=False`), in table-iteration order. -/
def exact_seniority_matches (cfg : Config) (title : String) : List (String × ℚ) :=
  let normalized_title := (normalize_title cfg.aliases title).data
  (cfg.seniority.filter (fun kv => hasWholeWord kv.1.data normalized_title)).map
    (fun kv => (kv.2, (1 : ℚ)))

/-- The candidate list built by `match_with_confidence` on the seniority axis:
the exact matches, or on an empty exact list the fuzzy fallback, whose
two-name unpack of rapidfuzz's 3-tuple raises `ValueError` exactly as on the
function axis. -/
def seniority_axis_candidates (cfg : Config) (title : String) :
    Except PyErr (List (String × ℚ)) :=
  if (exact_seniority_matches cfg title).isEmpty then
    match fuzzy_match (normalize_title cfg.aliases title).data
        (cfg.seniority.map (fun kv => kv.1)) 70 with
    | some _ => .error .valueError
    | none => .ok []
  else .ok (exact_seniority_matches cfg title)

/-- `match_with_confidence(title, SENIORITY_KEYWORDS)`: sort the candidates by
confidence descending (stable) and return the first, or `(None, 0.0)`; a
`ValueError` raised while building the candidates propagates. -/
def match_with_confidence_seniority (cfg : Config) (title : String) :
    Except PyErr (Option String × ℚ) :=
  match seniority_axis_candidates cfg title with
  | .error e => .error e
  | .ok cands =>
    match sortDescBy (fun m => m.2) cands with
    | [] => .ok (none, 0)
    | m :: _ => .ok (some m.1, m.2)

/-- Python truthiness of an `Optional[str]`: `not x` is true for `None` and
for the empty string. -/
def pyFalsy : Option String → Bool
  | none => true
  | some s => s.isEmpty

/-- Round to the nearest integer, ties to even (Python `round` on exact values). -/
def roundHalfEven (q : ℚ) : ℤ :=
  let n := ⌊q⌋
  let f := q - (n : ℚ)
  if f < 1 / 2 then n
  else if 1 / 2 < f then n + 1
  else if n % 2 = 0 then n else n + 1

/-- Python `round(x, 2)` on exact rationals. -/
def round2 (q : ℚ) : ℚ := (roundHalfEven (100 * q) : ℚ) / 100

/-- The classification record produced by `process_title` (spec §3); the
wall-clock `processing_time_ms` field is outside the model. -/
structure ClassificationRecord where
  function : Option String
  sub_function : Option String
  seniority : Option String
  confidence : ℚ
  matched : Bool
  warnings : List String
  original_title : String
deriving DecidableEq

/-- `process_title` from task3.py, with the configuration snapshot and the
`settings.min_confidence` threshold as explicit parameters.  The function axis
is evaluated first (its exception propagates first), then the seniority axis.
On success the `matched` verdict compares the unrounded mean of the two axis
confidences with the threshold; the reported confidence is that mean rounded
to two decimals. -/
def process_title (cfg : Config) (min_confidence : ℚ) (title : String) :
    Except PyErr ClassificationRecord :=
  match match_with_confidence_function cfg title with
  | .error e => .error e
  | .ok fres =>
    match match_with_confidence_seniority cfg title with
    | .error e => .error e
    | .ok sres =>
      let function := fres.1.1
      let sub_function := fres.1.2
      let func_conf := fres.2
      let seniority := sres.1
      let seniority_conf := sres.2
      let confidence := (func_conf + seniority_conf) / 2
      let matched := decide (confidence ≥ min_confidence)
      let warnings :=
        (if pyFalsy function then ["Could not determine function"] else []) ++
        (if pyFalsy seniority then ["Could not determine seniority"] else [])
      .ok { function := function
            sub_function := sub_function
            seniority := seniority
            confidence := round2 confidence
            matched := matched
            warnings := warnings
            original_title := title }

/-- ASCII upper-case letter. -/
def isUpperAscii (c : Char) : Bool := 'A' ≤ c && c ≤ 'Z'

/-- The character class of normalized titles: lower-case ASCII letters, digits
and whitespace. -/
def normalizedChar (c : Char) : Bool :=
  ('a' ≤ c && c ≤ 'z') || ('0' ≤ c && c ≤ '9') || isPySpace c

/-- Does `pat` occur as a contiguous substring of `s`? -/
def occursIn (pat : List Char) : List Char → Bool
  | [] => pat.isPrefixOf []
  | c :: rest => pat.isPrefixOf (c :: rest) || occursIn pat rest

/-! ### Helper lemmas about the selection of the best candidate -/

theorem mem_of_mem_insertDescBy {α : Type} {f : α → ℚ} {x z : α} {l : List α}
    (h : z ∈ insertDescBy f x l) : z = x ∨ z ∈ l := by
  induction l with
  | nil =>
    simp only [insertDescBy, List.mem_singleton] at h
    exact Or.inl h
  | cons y ys ih =>
    simp only [insertDescBy] at h
    split at h
    · rcases List.mem_cons.mp h with h | h
      · exact Or.inl h
      · exact Or.inr h
    · rcases List.mem_cons.mp h with h | h
      · exact Or.inr (by simp [h])
      · rcases ih h with h | h
        · exact Or.inl h
        · exact Or.inr (List.mem_cons_of_mem _ h)

theorem mem_of_mem_sortDescBy {α : Type} {f : α → ℚ} {z : α} {l : List α}
    (h : z ∈ sortDescBy f l) : z ∈ l := by
  induction l with
  | nil => simp only [sortDescBy] at h; exact h
  | cons x xs ih =>
    simp only [sortDescBy] at h
    rcases mem_of_mem_insertDescBy h with h | h
    · simp [h]
    · exact List.mem_cons_of_mem _ (ih h)

theorem insertDescBy_of_le {α : Type} (f : α → ℚ) (x : α) (l : List α)
    (h : ∀ y ∈ l, f y ≤ f x) : insertDescBy f x l = x :: l := by
  cases l with
  | nil => rfl
  | cons y ys =>
    simp only [insertDescBy]
    rw [if_pos (h y (List.mem_cons_self y ys))]

theorem sortDescBy_const {α : Type} (f : α → ℚ) (l : List α) (c : ℚ)
    (h : ∀ y ∈ l, f y = c) : sortDescBy f l = l := by
  induction l with
  | nil => rfl
  | cons x xs ih =>
    simp only [sortDescBy]
    rw [ih (fun y hy => h y (List.mem_cons_of_mem _ hy)),
      insertDescBy_of_le f x xs (fun y hy => ?_)]
    rw [h y (List.mem_cons_of_mem _ hy), h x (List.mem_cons_self x xs)]

/-! ### Helper lemmas about the fuzzy matcher -/

theorem extractOneAux_eq_some {q : List Char} :
    ∀ (cs : List String) (b : Option (String × ℚ × ℕ)) (i : ℕ) (c : String)
      (s : ℚ) (j : ℕ),
      extractOneAux q b i cs = some (c, s, j) →
      b = some (c, s, j) ∨ (c ∈ cs ∧ s = tokenSetScore q c.data) := by
  intro cs
  induction cs with
  | nil =>
    intro b i c s j h
    exact Or.inl h
  | cons x xs ih =>
    intro b i c s j h
    simp only [extractOneAux] at h
    rcases ih _ _ _ _ _ h with h' | h'
    · cases b with
      | none =>
        simp only [Option.some.injEq, Prod.mk.injEq] at h'
        obtain ⟨he, hs, hj⟩ := h'
        subst he
        exact Or.inr ⟨List.mem_cons_self _ _, hs.symm⟩
      | some p =>
        dsimp only at h'
        by_cases hlt : p.2.1 < tokenSetScore q x.data
        · rw [if_pos hlt] at h'
          simp only [Option.some.injEq, Prod.mk.injEq] at h'
          obtain ⟨he, hs, hj⟩ := h'
          subst he
          exact Or.inr ⟨List.mem_cons_self _ _, hs.symm⟩
        · rw [if_neg hlt] at h'
          exact Or.inl h'
    · exact Or.inr ⟨List.mem_cons_of_mem _ h'.1, h'.2⟩

theorem extractOne_eq_some {q : List Char} {cs : List String} {c : String}
    {s : ℚ} {j : ℕ} (h : extractOne q cs = some (c, s, j)) :
    c ∈ cs ∧ s = tokenSetScore q c.data := by
  rcases extractOneAux_eq_some cs none 0 c s j h with h' | h'
  · cases h'
  · exact h'

theorem fuzzy_match_eq_some {t : List Char} {cs : List String} {ms : ℚ}
    {ks : String × ℚ × ℕ} (h : fuzzy_match t cs ms = some ks) :
    ks.1 ∈ cs ∧ ks.2.1 = tokenSetScore t ks.1.data ∧ ms ≤ ks.2.1 := by
  rw [fuzzy_match] at h
  cases hx : extractOne t cs with
  | none => rw [hx] at h; cases h
  | some r =>
    rw [hx] at h
    dsimp only at h
    by_cases hge : r.2.1 ≥ ms
    · rw [if_pos hge] at h
      cases h
      obtain ⟨h1, h2⟩ := extractOne_eq_some hx
      exact ⟨h1, h2, hge⟩
    · rw [if_neg hge] at h
      cases h

/-! ### Bounds on the similarity scores -/

theorem indel_nil_left (b : List Char) : indel [] b = b.length := by
  induction b with
  | nil => simp [indel]
  | cons y ys ih =>
    rw [indel] at ih ⊢
    rw [levenshtein_nil_cons, ih]
    simp [indelCost, List.length_cons, Nat.add_comm]

theorem indel_nil_right (a : List Char) : indel a [] = a.length := by
  induction a with
  | nil => simp [indel]
  | cons x xs ih =>
    rw [indel] at ih ⊢
    rw [levenshtein_cons_nil, ih]
    simp [indelCost, List.length_cons, Nat.add_comm]

theorem indel_le (a b : List Char) : indel a b ≤ a.length + b.length := by
  induction a generalizing b with
  | nil => rw [indel_nil_left]; omega
  | cons x xs ih =>
    cases b with
    | nil => rw [indel_nil_right]; omega
    | cons y ys =>
      have h1 : indel (x :: xs) (y :: ys) ≤ 1 + indel xs (y :: ys) := by
        rw [indel, levenshtein_cons_cons]
        refine le_trans (min_le_left _ _) ?_
        simp [indelCost, indel]
      have h2 := ih (y :: ys)
      simp only [List.length_cons] at *
      omega

theorem normSim_le_100 {dist lensum : ℚ} (h0 : 0 ≤ dist) (hl : 0 ≤ lensum) :
    normSim dist lensum ≤ 100 := by
  rw [normSim]
  split
  · exact le_refl _
  · have hpos : 0 < lensum := lt_of_le_of_ne hl (Ne.symm (by assumption))
    have : 0 ≤ 100 * dist / lensum := by positivity
    linarith

theorem normSim_nonneg {dist lensum : ℚ} (h1 : dist ≤ lensum) (hl : 0 ≤ lensum) :
    0 ≤ normSim dist lensum := by
  rw [normSim]
  split
  · norm_num
  · have hpos : 0 < lensum := lt_of_le_of_ne hl (Ne.symm (by assumption))
    have : 100 * dist / lensum ≤ 100 := by
      rw [div_le_iff₀ hpos]
      nlinarith
    linarith

theorem fuzzRatioScore_bounds (a b : List Char) :
    0 ≤ fuzzRatioScore a b ∧ fuzzRatioScore a b ≤ 100 := by
  rw [fuzzRatioScore]
  have h0 : (0 : ℚ) ≤ (indel a b : ℚ) := by positivity
  have hl : (0 : ℚ) ≤ (a.length : ℚ) + (b.length : ℚ) := by positivity
  have h1 : (indel a b : ℚ) ≤ (a.length : ℚ) + (b.length : ℚ) := by
    exact_mod_cast indel_le a b
  exact ⟨normSim_nonneg h1 hl, normSim_le_100 h0 hl⟩

theorem bsect_nonneg (sectLen : ℚ) : 0 ≤ (if sectLen = 0 then (0 : ℚ) else 1) := by
  split <;> norm_num

theorem normSim_sect_le_100 (sectLen bLen : ℚ) (h1 : 0 ≤ sectLen) (h2 : 0 ≤ bLen) :
    normSim ((if sectLen = 0 then 0 else 1) + bLen)
      (sectLen + (sectLen + (if sectLen = 0 then 0 else 1) + bLen)) ≤ 100 := by
  have := bsect_nonneg sectLen
  exact normSim_le_100 (by linarith) (by linarith)

theorem tokenSetScore_bounds (s1 s2 : List Char) :
    0 ≤ tokenSetScore s1 s2 ∧ tokenSetScore s1 s2 ≤ 100 := by
  simp only [tokenSetScore]
  split
  · norm_num
  · split
    · norm_num
    · constructor
      · exact le_trans (fuzzRatioScore_bounds _ _).1 (le_max_left _ _)
      · refine max_le (fuzzRatioScore_bounds _ _).2
          (max_le (normSim_sect_le_100 _ _ ?_ ?_) (normSim_sect_le_100 _ _ ?_ ?_)) <;>
        positivity

/-! ### Confidence values of the candidate lists -/

theorem exact_function_matches_conf {cfg : Config} {t : String} :
    ∀ m ∈ exact_function_matches cfg t, m.2.2 = 1 := by
  intro m hm
  simp only [exact_function_matches] at hm
  obtain ⟨fs, _, hm⟩ := List.mem_flatMap.mp hm
  obtain ⟨kv, _, rfl⟩ := List.mem_map.mp hm
  rfl

theorem exact_seniority_matches_conf {cfg : Config} {t : String} :
    ∀ m ∈ exact_seniority_matches cfg t, m.2 = 1 := by
  intro m hm
  simp only [exact_seniority_matches] at hm
  obtain ⟨kv, _, rfl⟩ := List.mem_map.mp hm
  rfl

theorem function_axis_candidates_ok {cfg : Config} {t : String}
    {l : List (String × String × ℚ)}
    (h : function_axis_candidates cfg t = Except.ok l) :
    l = [] ∨ l = exact_function_matches cfg t := by
  rw [function_axis_candidates] at h
  split at h
  · cases hfz : fuzzy_match (normalize_title cfg.aliases t).data
        (all_sub_function_keywords cfg) 70 with
    | none => rw [hfz] at h; cases h; exact Or.inl rfl
    | some ks => rw [hfz] at h; cases h
  · cases h
    exact Or.inr rfl

theorem seniority_axis_candidates_ok {cfg : Config} {t : String}
    {l : List (String × ℚ)}
    (h : seniority_axis_candidates cfg t = Except.ok l) :
    l = [] ∨ l = exact_seniority_matches cfg t := by
  rw [seniority_axis_candidates] at h
  split at h
  · cases hfz : fuzzy_match (normalize_title cfg.aliases t).data
        (cfg.seniority.map (fun kv => kv.1)) 70 with
    | none => rw [hfz] at h; cases h; exact Or.inl rfl
    | some ks => rw [hfz] at h; cases h
  · cases h
    exact Or.inr rfl

theorem match_with_confidence_function_ok_conf {cfg : Config} {t : String}
    {fres : (Option String × Option String) × ℚ}
    (h : match_with_confidence_function cfg t = Except.ok fres) :
    fres.2 = 0 ∨ fres.2 = 1 := by
  rw [match_with_confidence_function] at h
  cases hc : function_axis_candidates cfg t with
  | error e => rw [hc] at h; cases h
  | ok l =>
    rw [hc] at h
    dsimp only at h
    cases hs : sortDescBy (fun m => m.2.2) l with
    | nil => rw [hs] at h; cases h; exact Or.inl rfl
    | cons m rest =>
      rw [hs] at h
      cases h
      have hm : m ∈ l := mem_of_mem_sortDescBy (hs ▸ List.mem_cons_self m rest)
      rcases function_axis_candidates_ok hc with rfl | rfl
      · cases hm
      · exact Or.inr (exact_function_matches_conf m hm)

theorem match_with_confidence_seniority_ok_conf {cfg : Config} {t : String}
    {sres : Option String × ℚ}
    (h : match_with_confidence_seniority cfg t = Except.ok sres) :
    sres.2 = 0 ∨ sres.2 = 1 := by
  rw [match_with_confidence_seniority] at h
  cases hc : seniority_axis_candidates cfg t with
  | error e => rw [hc] at h; cases h
  | ok l =>
    rw [hc] at h
    dsimp only at h
    cases hs : sortDescBy (fun m => m.2) l with
    | nil => rw [hs] at h; cases h; exact Or.inl rfl
    | cons m rest =>
      rw [hs] at h
      cases h
      have hm : m ∈ l := mem_of_mem_sortDescBy (hs ▸ List.mem_cons_self m rest)
      rcases seniority_axis_candidates_ok hc with rfl | rfl
      · cases hm
      · exact Or.inr (exact_seniority_matches_conf m hm)

theorem process_title_ok {cfg : Config} {minC : ℚ} {title : String}
    {r : ClassificationRecord}
    (h : process_title cfg minC title = Except.ok r) :
    ∃ fres sres,
      match_with_confidence_function cfg title = Except.ok fres ∧
      match_with_confidence_seniority cfg title = Except.ok sres ∧
      r = { function := fres.1.1
            sub_function := fres.1.2
            seniority := sres.1
            confidence := round2 ((fres.2 + sres.2) / 2)
            matched := decide ((fres.2 + sres.2) / 2 ≥ minC)
            warnings :=
              (if pyFalsy fres.1.1 then ["Could not determine function"] else []) ++
              (if pyFalsy sres.1 then ["Could not determine seniority"] else [])
            original_title := title } := by
  rw [process_title] at h
  cases hf : match_with_confidence_function cfg title with
  | error e => rw [hf] at h; cases h
  | ok fres =>
    rw [hf] at h
    dsimp only at h
    cases hs : match_with_confidence_seniority cfg title with
    | error e => rw [hs] at h; cases h
    | ok sres =>
      rw [hs] at h
      dsimp only at h
      cases h
      exact ⟨fres, sres, rfl, rfl, rfl⟩

theorem record_confidence_eq_mean {cfg : Config} {minC : ℚ} {title : String}
    {r : ClassificationRecord} {fres : (Option String × Option String) × ℚ}
    {sres : Option String × ℚ}
    (h : process_title cfg minC title = Except.ok r)
    (hf : match_with_confidence_function cfg title = Except.ok fres)
    (hs : match_with_confidence_seniority cfg title = Except.ok sres) :
    r.confidence = (fres.2 + sres.2) / 2 ∧
    r.confidence = round2 ((fres.2 + sres.2) / 2) ∧
    r.matched = decide ((fres.2 + sres.2) / 2 ≥ minC) := by
  obtain ⟨fres2, sres2, hf2, hs2, hr⟩ := process_title_ok h
  rw [hf] at hf2
  rw [hs] at hs2
  cases hf2
  cases hs2
  subst hr
  refine ⟨?_, rfl, rfl⟩
  show round2 ((fres.2 + sres.2) / 2) = (fres.2 + sres.2) / 2
  rcases match_with_confidence_function_ok_conf hf with h1 | h1 <;>
    rcases match_with_confidence_seniority_ok_conf hs with h2 | h2 <;>
    rw [h1, h2] <;>
    with_unfolding_all decide

/-! ### Claim C1 -/

/-- C1, counterexample: with the default tables, classifying
"Senior Growth Manager" does not return the claimed record with seniority
"Senior" (the stable descending sort keeps the earlier table entry
"manager" → "Manager" first among the two exact seniority matches). -/
theorem claim1_counterexample :
    process_title get_default_mappings (7 / 10) "Senior Growth Manager" ≠
      Except.ok
        { function := some "Marketing"
          sub_function := some "Growth"
          seniority := some "Senior"
          confidence := 1
          matched := true
          warnings := []
          original_title := "Senior Growth Manager" } := by
  with_unfolding_all decide

/-- C1, amended: with the default tables, "Senior Growth Manager" classifies to
function "Marketing", sub-function "Growth", seniority "Manager" (the first
exact seniority match in table order, not "Senior"), confidence 1.0,
matched true and no warnings. -/
theorem claim1_theorem :
    process_title get_default_mappings (7 / 10) "Senior Growth Manager" =
      Except.ok
        { function := some "Marketing"
          sub_function := some "Growth"
          seniority := some "Manager"
          confidence := 1
          matched := true
          warnings := []
          original_title := "Senior Growth Manager" } := by
  with_unfolding_all decide

/-! ### Claim C2, counterexample -/

/-- C2, counterexample: the output of `normalize_title` is not limited to
letters, digits and single spaces (a tab survives normalization), and
normalization is not idempotent (the expansion of the alias "dev" contains
"dev" itself, so a second pass expands it again). -/
theorem claim2_counterexample :
    '\t' ∈ (normalize_title get_default_mappings.aliases "a\tb").data ∧
    normalize_title get_default_mappings.aliases
        (normalize_title get_default_mappings.aliases "dev") ≠
      normalize_title get_default_mappings.aliases "dev" := by
  with_unfolding_all decide

/-! ### Claim C7 -/

/-- C7: classification is deterministic — for a fixed configuration snapshot
and title, two calls to `process_title` give the same outcome, in particular
identical records whenever a record is produced. -/
theorem claim7_theorem (cfg : Config) (minC : ℚ) (title : String)
    (r₁ r₂ : Except PyErr ClassificationRecord)
    (h₁ : r₁ = process_title cfg minC title)
    (h₂ : r₂ = process_title cfg minC title) : r₁ = r₂ := by
  rw [h₁, h₂]

/-- Witness for C7 at a concrete input. -/
theorem claim7_witness :
    process_title get_default_mappings (7 / 10) "Senior Growth Manager" =
      process_title get_default_mappings (7 / 10) "Senior Growth Manager" :=
  claim7_theorem get_default_mappings (7 / 10) "Senior Growth Manager" _ _ rfl rfl

/-! ### Claim C8, counterexample -/

/-- C8, counterexample: the warning strings produced by `process_title` are
capitalized ("Could not determine …"), so the lower-case strings named by the
claim never occur. -/
theorem claim8_counterexample :
    process_title get_default_mappings (7 / 10) "" = Except.ok
      { function := none
        sub_function := none
        seniority := none
        confidence := 0
        matched := false
        warnings := ["Could not determine function", "Could not determine seniority"]
        original_title := "" } ∧
    "could not determine function" ∉
      ["Could not determine function", "Could not determine seniority"] := by
  with_unfolding_all decide

/-! ### Claim C9 -/

/-- C9: in every record produced by `process_title`, the function and
sub-function fields are both present or both absent. -/
theorem claim9_theorem (cfg : Config) (minC : ℚ) (title : String)
    (r : ClassificationRecord)
    (h : process_title cfg minC title = Except.ok r) :
    (r.function = none ∧ r.sub_function = none) ∨
    (∃ f sf, r.function = some f ∧ r.sub_function = some sf) := by
  obtain ⟨fres, sres, hf, hs, hr⟩ := process_title_ok h
  subst hr
  rw [match_with_confidence_function] at hf
  cases hc : function_axis_candidates cfg title with
  | error e => rw [hc] at hf; cases hf
  | ok l =>
    rw [hc] at hf
    dsimp only at hf
    cases hsort : sortDescBy (fun m => m.2.2) l with
    | nil =>
      rw [hsort] at hf
      cases hf
      exact Or.inl ⟨rfl, rfl⟩
    | cons m rest =>
      rw [hsort] at hf
      cases hf
      exact Or.inr ⟨m.1, m.2.1, rfl, rfl⟩

/-- Witness for C9 at a concrete input (the empty title, whose record has both
fields absent). -/
theorem claim9_witness :
    (({ function := none
        sub_function := none
        seniority := none
        confidence := 0
        matched := false
        warnings := ["Could not determine function", "Could not determine seniority"]
        original_title := "" } : ClassificationRecord).function = none ∧
      ({ function := none
         sub_function := none
         seniority := none
         confidence := 0
         matched := false
         warnings := ["Could not determine function", "Could not determine seniority"]
         original_title := "" } : ClassificationRecord).sub_function = none) ∨
    (∃ f sf,
      ({ function := none
         sub_function := none
         seniority := none
         confidence := 0
         matched := false
         warnings := ["Could not determine function", "Could not determine seniority"]
         original_title := "" } : ClassificationRecord).function = some f ∧
      ({ function := none
         sub_function := none
         seniority := none
         confidence := 0
         matched := false
         warnings := ["Could not determine function", "Could not determine seniority"]
         original_title := "" } : ClassificationRecord).sub_function = some sf) := by
  have hp : process_title get_default_mappings (7 / 10) "" = Except.ok
      { function := none
        sub_function := none
        seniority := none
        confidence := 0
        matched := false
        warnings := ["Could not determine function", "Could not determine seniority"]
        original_title := "" } := by
    with_unfolding_all decide
  exact claim9_theorem get_default_mappings (7 / 10) "" _ hp

/-! ### Claim C10 -/

/-- C10, counterexample: the designated fuzzy-match input "growht" (the only
kind of input whose mean could be a non-trivial rounding case) does not
produce a record at all — the fuzzy fallback succeeds with score 250/3 ≥ 70
and the two-name unpack of rapidfuzz's 3-tuple raises `ValueError`. -/
theorem claim10_counterexample :
    process_title get_default_mappings (21 / 50) "growht" =
      Except.error PyErr.valueError := by
  with_unfolding_all decide

/-- C10, amended: `matched` is decided by comparing the unrounded mean of the
two axis confidences with the threshold, and the reported confidence is that
mean rounded to two decimals; but every record the engine actually produces
has axis confidences in {0, 1} (fuzzy successes raise `ValueError` instead),
so the mean lies in {0, 1/2, 1} where rounding is the identity, and the
reported confidence can never equal-or-exceed the threshold while `matched`
is false. -/
theorem claim10_theorem :
    ∀ (cfg : Config) (minC : ℚ) (title : String) (r : ClassificationRecord)
      (fres : (Option String × Option String) × ℚ) (sres : Option String × ℚ),
      process_title cfg minC title = Except.ok r →
      match_with_confidence_function cfg title = Except.ok fres →
      match_with_confidence_seniority cfg title = Except.ok sres →
      r.matched = decide ((fres.2 + sres.2) / 2 ≥ minC) ∧
      r.confidence = round2 ((fres.2 + sres.2) / 2) ∧
      r.confidence = (fres.2 + sres.2) / 2 ∧
      ¬(minC ≤ r.confidence ∧ r.matched = false) := by
  intro cfg minC title r fres sres h hf hs
  obtain ⟨hc, hcr, hmt⟩ := record_confidence_eq_mean h hf hs
  refine ⟨hmt, hcr, hc, ?_⟩
  rintro ⟨hle, hfalse⟩
  rw [hc] at hle
  rw [hmt] at hfalse
  exact of_decide_eq_false hfalse hle

/-- Witness for C10 at a concrete input (the empty title with the default
threshold). -/
theorem claim10_witness :
    ¬((7 : ℚ) / 10 ≤
        ({ function := none
           sub_function := none
           seniority := none
           confidence := 0
           matched := false
           warnings := ["Could not determine function", "Could not determine seniority"]
           original_title := "" } : ClassificationRecord).confidence ∧
      ({ function := none
         sub_function := none
         seniority := none
         confidence := 0
         matched := false
         warnings := ["Could not determine function", "Could not determine seniority"]
         original_title := "" } : ClassificationRecord).matched = false) := by
  have hp : process_title get_default_mappings (7 / 10) "" = Except.ok
      { function := none
        sub_function := none
        seniority := none
        confidence := 0
        matched := false
        warnings := ["Could not determine function", "Could not determine seniority"]
        original_title := "" } := by
    with_unfolding_all decide
  have hf : match_with_confidence_function get_default_mappings "" =
      Except.ok ((none, none), 0) := by
    with_unfolding_all decide
  have hs : match_with_confidence_seniority get_default_mappings "" =
      Except.ok (none, 0) := by
    with_unfolding_all decide
  exact (claim10_theorem get_default_mappings (7 / 10) "" _ _ _ hp hf hs).2.2.2

/-! ### Bounds for the rounded confidence -/

theorem le_roundHalfEven {q : ℚ} {lo : ℤ} (hlo : (lo : ℚ) ≤ q) :
    lo ≤ roundHalfEven q := by
  have hfl : lo ≤ ⌊q⌋ := Int.le_floor.mpr hlo
  rw [roundHalfEven]
  split
  · exact hfl
  · split
    · omega
    · split <;> omega

theorem roundHalfEven_le {q : ℚ} {hi : ℤ} (hhi : q ≤ (hi : ℚ)) :
    roundHalfEven q ≤ hi := by
  have hfl : ⌊q⌋ ≤ hi := by
    have := Int.floor_le_floor hhi
    rwa [Int.floor_intCast] at this
  have hfr : (⌊q⌋ : ℚ) ≤ q := Int.floor_le q
  have hsucc : (⌊q⌋ : ℚ) + 1 / 2 ≤ q → ⌊q⌋ + 1 ≤ hi := by
    intro hhalf
    have h1 : (⌊q⌋ : ℚ) < (hi : ℚ) := by linarith
    have h2 : ⌊q⌋ < hi := by exact_mod_cast h1
    omega
  rw [roundHalfEven]
  split
  · exact hfl
  · split
    · exact hsucc (by linarith [show ¬(q - (⌊q⌋ : ℚ) < 1 / 2) from by assumption])
    · split
      · exact hfl
      · have hnlt : ¬(q - (⌊q⌋ : ℚ) < 1 / 2) := by assumption
        exact hsucc (by linarith)

theorem round2_bounds {q : ℚ} (h0 : 0 ≤ q) (h1 : q ≤ 1) :
    0 ≤ round2 q ∧ round2 q ≤ 1 := by
  rw [round2]
  have hlo : (((0 : ℤ) : ℚ)) ≤ 100 * q := by push_cast; linarith
  have hhi : 100 * q ≤ (((100 : ℤ) : ℚ)) := by push_cast; linarith
  have ha : (0 : ℤ) ≤ roundHalfEven (100 * q) := le_roundHalfEven hlo
  have hb : roundHalfEven (100 * q) ≤ (100 : ℤ) := roundHalfEven_le hhi
  have ha' : (0 : ℚ) ≤ (roundHalfEven (100 * q) : ℚ) := by exact_mod_cast ha
  have hb' : ((roundHalfEven (100 * q) : ℤ) : ℚ) ≤ 100 := by exact_mod_cast hb
  constructor
  · linarith
  · linarith

/-! ### Claim C4 -/

/-- C4: for every configuration and title on which the engine actually
returns a record, the two axis confidences lie in [0, 1] (they are 0 or 1:
fuzzy successes raise `ValueError` instead of producing a record), the
record's confidence field equals their unweighted arithmetic mean (the mean
lies in {0, 1/2, 1}, where rounding to two decimals is the identity), hence
lies in [0, 1], and `matched` holds exactly when that confidence reaches the
threshold. -/
theorem claim4_theorem : ∀ (cfg : Config) (minC : ℚ) (title : String)
    (r : ClassificationRecord) (fres : (Option String × Option String) × ℚ)
    (sres : Option String × ℚ),
    process_title cfg minC title = Except.ok r →
    match_with_confidence_function cfg title = Except.ok fres →
    match_with_confidence_seniority cfg title = Except.ok sres →
    (0 ≤ fres.2 ∧ fres.2 ≤ 1) ∧ (0 ≤ sres.2 ∧ sres.2 ≤ 1) ∧
    r.confidence = (fres.2 + sres.2) / 2 ∧
    0 ≤ r.confidence ∧ r.confidence ≤ 1 ∧
    (r.matched = true ↔ minC ≤ (fres.2 + sres.2) / 2) := by
  intro cfg minC title r fres sres h hf hs
  obtain ⟨hc, hcr, hmt⟩ := record_confidence_eq_mean h hf hs
  have hfb : 0 ≤ fres.2 ∧ fres.2 ≤ 1 := by
    rcases match_with_confidence_function_ok_conf hf with h1 | h1 <;> rw [h1] <;>
      norm_num
  have hsb : 0 ≤ sres.2 ∧ sres.2 ≤ 1 := by
    rcases match_with_confidence_seniority_ok_conf hs with h1 | h1 <;> rw [h1] <;>
      norm_num
  refine ⟨hfb, hsb, hc, ?_, ?_, ?_⟩
  · rw [hc]
    linarith [hfb.1, hsb.1]
  · rw [hc]
    linarith [hfb.2, hsb.2]
  · rw [hmt]
    exact decide_eq_true_iff

/-- Witness for C4 at a concrete input: "Backend Dev" has function confidence
1.0, seniority confidence 0.0, and a record with confidence (1 + 0) / 2. -/
theorem claim4_witness :
    process_title get_default_mappings (7 / 10) "Backend Dev" = Except.ok
      { function := some "Engineering"
        sub_function := some "Backend Development"
        seniority := none
        confidence := 1 / 2
        matched := false
        warnings := ["Could not determine seniority"]
        original_title := "Backend Dev" } ∧
    ({ function := some "Engineering"
       sub_function := some "Backend Development"
       seniority := none
       confidence := 1 / 2
       matched := false
       warnings := ["Could not determine seniority"]
       original_title := "Backend Dev" } : ClassificationRecord).confidence =
      ((1 : ℚ) + 0) / 2 := by
  have hp : process_title get_default_mappings (7 / 10) "Backend Dev" = Except.ok
      { function := some "Engineering"
        sub_function := some "Backend Development"
        seniority := none
        confidence := 1 / 2
        matched := false
        warnings := ["Could not determine seniority"]
        original_title := "Backend Dev" } := by
    with_unfolding_all decide
  have hf : match_with_confidence_function get_default_mappings "Backend Dev" =
      Except.ok ((some "Engineering", some "Backend Development"), (1 : ℚ)) := by
    with_unfolding_all decide
  have hs : match_with_confidence_seniority get_default_mappings "Backend Dev" =
      Except.ok (none, (0 : ℚ)) := by
    with_unfolding_all decide
  have h := claim4_theorem get_default_mappings (7 / 10) "Backend Dev" _ _ _ hp hf hs
  exact ⟨hp, h.2.2.1⟩

/-! ### Claim C5 -/

/-- C5: on either axis, when the exact keyword matcher produces candidates,
the selected candidate is the first one in table-iteration order, and its
confidence is maximal among the candidates (all exact candidates carry
confidence 1.0, so the first-encountered tie-break decides). -/
theorem claim5_theorem (cfg : Config) (title : String) :
    (∀ m ms, exact_function_matches cfg title = m :: ms →
      match_with_confidence_function cfg title =
        Except.ok ((some m.1, some m.2.1), m.2.2) ∧
      ∀ c ∈ m :: ms, c.2.2 ≤ m.2.2) ∧
    (∀ m ms, exact_seniority_matches cfg title = m :: ms →
      match_with_confidence_seniority cfg title = Except.ok (some m.1, m.2) ∧
      ∀ c ∈ m :: ms, c.2 ≤ m.2) := by
  constructor
  · intro m ms hm
    have hne : (exact_function_matches cfg title).isEmpty = false := by
      rw [hm]; rfl
    have hcand : function_axis_candidates cfg title = Except.ok (m :: ms) := by
      rw [function_axis_candidates, hne]
      simp only [Bool.false_eq_true, if_false]
      rw [hm]
    have hsort : sortDescBy (fun x => x.2.2) (m :: ms) = m :: ms :=
      sortDescBy_const _ _ 1 (fun y hy => exact_function_matches_conf y (hm.symm ▸ hy))
    refine ⟨?_, ?_⟩
    · rw [match_with_confidence_function, hcand]
      dsimp only
      rw [hsort]
    · intro c hc
      rw [exact_function_matches_conf c (hm.symm ▸ hc),
        exact_function_matches_conf m (hm.symm ▸ List.mem_cons_self m ms)]
  · intro m ms hm
    have hne : (exact_seniority_matches cfg title).isEmpty = false := by
      rw [hm]; rfl
    have hcand : seniority_axis_candidates cfg title = Except.ok (m :: ms) := by
      rw [seniority_axis_candidates, hne]
      simp only [Bool.false_eq_true, if_false]
      rw [hm]
    have hsort : sortDescBy (fun x => x.2) (m :: ms) = m :: ms :=
      sortDescBy_const _ _ 1 (fun y hy => exact_seniority_matches_conf y (hm.symm ▸ hy))
    refine ⟨?_, ?_⟩
    · rw [match_with_confidence_seniority, hcand]
      dsimp only
      rw [hsort]
    · intro c hc
      rw [exact_seniority_matches_conf c (hm.symm ▸ hc),
        exact_seniority_matches_conf m (hm.symm ▸ List.mem_cons_self m ms)]

/-- Witness for C5: for "Senior Growth Manager" the seniority axis has the two
exact candidates Manager and Senior (both confidence 1.0) and selects the
first, and the function axis selects its single exact candidate. -/
theorem claim5_witness :
    match_with_confidence_seniority get_default_mappings "Senior Growth Manager" =
      Except.ok (some "Manager", 1) ∧
    match_with_confidence_function get_default_mappings "Senior Growth Manager" =
      Except.ok ((some "Marketing", some "Growth"), 1) := by
  have h := claim5_theorem get_default_mappings "Senior Growth Manager"
  have hs : exact_seniority_matches get_default_mappings "Senior Growth Manager" =
      [("Manager", (1 : ℚ)), ("Senior", 1)] := by with_unfolding_all decide
  have hf : exact_function_matches get_default_mappings "Senior Growth Manager" =
      [("Marketing", "Growth", (1 : ℚ))] := by with_unfolding_all decide
  exact ⟨(h.2 ("Manager", 1) [("Senior", 1)] hs).1,
    (h.1 ("Marketing", "Growth", 1) [] hf).1⟩

/-! ### Claim C6 -/

/-- C6: on either axis, if no table keyword occurs whole-word in the
normalized title and every candidate keyword's token-set score is below the
threshold 70, the axis resolves to an absent label with confidence 0.0. -/
theorem claim6_theorem (cfg : Config) (title : String) :
    ((∀ fs ∈ cfg.functions, ∀ kv ∈ fs.2,
        hasWholeWord kv.1.data (normalize_title cfg.aliases title).data = false) →
      (∀ k ∈ all_sub_function_keywords cfg,
        tokenSetScore (normalize_title cfg.aliases title).data k.data < 70) →
      match_with_confidence_function cfg title = Except.ok ((none, none), 0)) ∧
    ((∀ kv ∈ cfg.seniority,
        hasWholeWord kv.1.data (normalize_title cfg.aliases title).data = false) →
      (∀ k ∈ cfg.seniority.map (fun kv => kv.1),
        tokenSetScore (normalize_title cfg.aliases title).data k.data < 70) →
      match_with_confidence_seniority cfg title = Except.ok (none, 0)) := by
  constructor
  · intro hw hsc
    have hexact : exact_function_matches cfg title = [] := by
      simp only [exact_function_matches]
      rw [List.flatMap_eq_nil_iff]
      intro fs hfs
      rw [List.map_eq_nil_iff, List.filter_eq_nil_iff]
      intro kv hkv
      rw [hw fs hfs kv hkv]
      exact Bool.false_ne_true
    have hcand : function_axis_candidates cfg title = Except.ok [] := by
      rw [function_axis_candidates, hexact]
      simp only [List.isEmpty_nil, if_true]
      cases hfz : fuzzy_match (normalize_title cfg.aliases title).data
          (all_sub_function_keywords cfg) 70 with
      | none => rfl
      | some ks =>
        obtain ⟨hmem, hsc2, hge⟩ := fuzzy_match_eq_some hfz
        exact absurd (hsc ks.1 hmem) (by rw [← hsc2]; exact not_lt.mpr hge)
    rw [match_with_confidence_function, hcand]
    rfl
  · intro hw hsc
    have hexact : exact_seniority_matches cfg title = [] := by
      simp only [exact_seniority_matches]
      rw [List.map_eq_nil_iff, List.filter_eq_nil_iff]
      intro kv hkv
      rw [hw kv hkv]
      exact Bool.false_ne_true
    have hcand : seniority_axis_candidates cfg title = Except.ok [] := by
      rw [seniority_axis_candidates, hexact]
      simp only [List.isEmpty_nil, if_true]
      cases hfz : fuzzy_match (normalize_title cfg.aliases title).data
          (cfg.seniority.map (fun kv => kv.1)) 70 with
      | none => rfl
      | some ks =>
        obtain ⟨hmem, hsc2, hge⟩ := fuzzy_match_eq_some hfz
        exact absurd (hsc ks.1 hmem) (by rw [← hsc2]; exact not_lt.mpr hge)
    rw [match_with_confidence_seniority, hcand]
    rfl

/-- Witness for C6: the input "qx" matches no keyword whole-word and every
fuzzy score is below 70, so both axes come back absent with confidence 0.0. -/
theorem claim6_witness :
    match_with_confidence_function get_default_mappings "qx" =
      Except.ok ((none, none), 0) ∧
    match_with_confidence_seniority get_default_mappings "qx" =
      Except.ok (none, 0) := by
  have h := claim6_theorem get_default_mappings "qx"
  refine ⟨h.1 ?_ ?_, h.2 ?_ ?_⟩ <;> with_unfolding_all decide

/-! ### Labels in the records come from the tables -/

theorem match_function_fst_cases {cfg : Config} {t : String}
    {fres : (Option String × Option String) × ℚ}
    (h : match_with_confidence_function cfg t = Except.ok fres) :
    fres.1.1 = none ∨
    ∃ f, fres.1.1 = some f ∧ f ∈ cfg.functions.map Prod.fst := by
  rw [match_with_confidence_function] at h
  cases hc : function_axis_candidates cfg t with
  | error e => rw [hc] at h; cases h
  | ok l =>
    rw [hc] at h
    dsimp only at h
    cases hs : sortDescBy (fun m => m.2.2) l with
    | nil =>
      rw [hs] at h
      cases h
      exact Or.inl rfl
    | cons m rest =>
      rw [hs] at h
      cases h
      have hm : m ∈ l := mem_of_mem_sortDescBy (hs ▸ List.mem_cons_self m rest)
      rcases function_axis_candidates_ok hc with rfl | rfl
      · cases hm
      · refine Or.inr ⟨m.1, rfl, ?_⟩
        simp only [exact_function_matches] at hm
        obtain ⟨fs, hfs, hm⟩ := List.mem_flatMap.mp hm
        obtain ⟨kv, _, rfl⟩ := List.mem_map.mp hm
        exact List.mem_map.mpr ⟨fs, hfs, rfl⟩

theorem match_seniority_fst_cases {cfg : Config} {t : String}
    {sres : Option String × ℚ}
    (h : match_with_confidence_seniority cfg t = Except.ok sres) :
    sres.1 = none ∨
    ∃ v, sres.1 = some v ∧ v ∈ cfg.seniority.map Prod.snd := by
  rw [match_with_confidence_seniority] at h
  cases hc : seniority_axis_candidates cfg t with
  | error e => rw [hc] at h; cases h
  | ok l =>
    rw [hc] at h
    dsimp only at h
    cases hs : sortDescBy (fun m => m.2) l with
    | nil =>
      rw [hs] at h
      cases h
      exact Or.inl rfl
    | cons m rest =>
      rw [hs] at h
      cases h
      have hm : m ∈ l := mem_of_mem_sortDescBy (hs ▸ List.mem_cons_self m rest)
      rcases seniority_axis_candidates_ok hc with rfl | rfl
      · cases hm
      · refine Or.inr ⟨m.1, rfl, ?_⟩
        simp only [exact_seniority_matches] at hm
        obtain ⟨kv, hkv, rfl⟩ := List.mem_map.mp hm
        exact List.mem_map.mpr ⟨kv, List.mem_of_mem_filter hkv, rfl⟩

theorem default_function_label_nonempty :
    ∀ f ∈ (get_default_mappings.functions).map Prod.fst, f.isEmpty = false := by
  decide

theorem default_seniority_value_nonempty :
    ∀ v ∈ (get_default_mappings.seniority).map Prod.snd, v.isEmpty = false := by
  decide

/-! ### Claim C8, amended theorem -/

/-- C8, amended: with the default tables, on every input whose classification
returns a record, the record's warnings list is exactly the capitalized
"Could not determine function" when the function field is absent followed by
"Could not determine seniority" when the seniority field is absent, in that
order; and the confidence and matched fields equal the values computed from
the two axis confidences alone, so warnings have no effect on them. -/
theorem claim8_theorem :
    ∀ (title : String) (r : ClassificationRecord)
      (fres : (Option String × Option String) × ℚ) (sres : Option String × ℚ),
      process_title get_default_mappings (7 / 10) title = Except.ok r →
      match_with_confidence_function get_default_mappings title = Except.ok fres →
      match_with_confidence_seniority get_default_mappings title = Except.ok sres →
      r.warnings =
        (if r.function = none then ["Could not determine function"] else []) ++
        (if r.seniority = none then ["Could not determine seniority"] else []) ∧
      r.confidence = round2 ((fres.2 + sres.2) / 2) ∧
      r.matched = decide ((fres.2 + sres.2) / 2 ≥ 7 / 10) := by
  intro title r fres sres h hf hs
  obtain ⟨fres2, sres2, hf2, hs2, hr⟩ := process_title_ok h
  rw [hf] at hf2
  rw [hs] at hs2
  cases hf2
  cases hs2
  subst hr
  refine ⟨?_, rfl, rfl⟩
  show (if pyFalsy fres.1.1 then ["Could not determine function"] else []) ++
      (if pyFalsy sres.1 then ["Could not determine seniority"] else []) =
    (if fres.1.1 = none then ["Could not determine function"] else []) ++
    (if sres.1 = none then ["Could not determine seniority"] else [])
  have h1 : (if pyFalsy fres.1.1 then ["Could not determine function"] else []) =
      (if fres.1.1 = none then ["Could not determine function"] else []) := by
    rcases match_function_fst_cases hf with hnone | ⟨f, hsome, hmem⟩
    · rw [hnone]
      simp [pyFalsy]
    · rw [hsome]
      have hne := default_function_label_nonempty f hmem
      simp [pyFalsy, hne]
  have h2 : (if pyFalsy sres.1 then ["Could not determine seniority"] else []) =
      (if sres.1 = none then ["Could not determine seniority"] else []) := by
    rcases match_seniority_fst_cases hs with hnone | ⟨v, hsome, hmem⟩
    · rw [hnone]
      simp [pyFalsy]
    · rw [hsome]
      have hne := default_seniority_value_nonempty v hmem
      simp [pyFalsy, hne]
  rw [h1, h2]

/-- Witness for C8 at a concrete input (the empty title, whose record carries
both warnings). -/
theorem claim8_witness :
    ({ function := none
       sub_function := none
       seniority := none
       confidence := 0
       matched := false
       warnings := ["Could not determine function", "Could not determine seniority"]
       original_title := "" } : ClassificationRecord).warnings =
      (if ({ function := none
             sub_function := none
             seniority := none
             confidence := 0
             matched := false
             warnings := ["Could not determine function",
               "Could not determine seniority"]
             original_title := "" } : ClassificationRecord).function = none
        then ["Could not determine function"] else []) ++
      (if ({ function := none
             sub_function := none
             seniority := none
             confidence := 0
             matched := false
             warnings := ["Could not determine function",
               "Could not determine seniority"]
             original_title := "" } : ClassificationRecord).seniority = none
        then ["Could not determine seniority"] else []) := by
  have hp : process_title get_default_mappings (7 / 10) "" = Except.ok
      { function := none
        sub_function := none
        seniority := none
        confidence := 0
        matched := false
        warnings := ["Could not determine function", "Could not determine seniority"]
        original_title := "" } := by
    with_unfolding_all decide
  have hf : match_with_confidence_function get_default_mappings "" =
      Except.ok ((none, none), 0) := by
    with_unfolding_all decide
  have hs : match_with_confidence_seniority get_default_mappings "" =
      Except.ok (none, 0) := by
    with_unfolding_all decide
  have h8 := claim8_theorem "" _ _ _ hp hf hs
  exact h8.1

/-! ### Character classes under normalization -/

theorem char_toNat_le_of_le {a b : Char} (h : a ≤ b) : a.toNat ≤ b.toNat := by
  rw [Char.le_def, UInt32.le_def, BitVec.le_def] at h
  exact h

theorem ofNat_shift_not_upper :
    ∀ n < 123, 96 < n → isUpperAscii (Char.ofNat n) = false := by
  decide

theorem asciiLower_not_upper (c : Char) : isUpperAscii (asciiLower c) = false := by
  rw [asciiLower]
  split
  · rename_i h
    rw [Bool.and_eq_true, decide_eq_true_eq, decide_eq_true_eq] at h
    obtain ⟨h1, h2⟩ := h
    have hA := char_toNat_le_of_le h1
    have hZ := char_toNat_le_of_le h2
    have e1 : 'A'.toNat = 65 := rfl
    have e2 : 'Z'.toNat = 90 := rfl
    apply ofNat_shift_not_upper <;> omega
  · rename_i h
    rw [isUpperAscii]
    exact Bool.eq_false_iff.mpr h

theorem normalizedChar_not_upper {c : Char} (h : normalizedChar c = true) :
    isUpperAscii c = false := by
  rw [normalizedChar, isPySpace] at h
  rw [isUpperAscii]
  simp only [Bool.or_eq_true, Bool.and_eq_true, decide_eq_true_eq] at h
  have eZ : 'Z'.toNat = 90 := rfl
  have eA : 'A'.toNat = 65 := rfl
  have ea : 'a'.toNat = 97 := rfl
  have e9 : '9'.toNat = 57 := rfl
  rcases h with (⟨h1, _⟩ | ⟨_, h2⟩) | hsp
  · have hn := char_toNat_le_of_le h1
    have hne : ¬(c ≤ 'Z') := fun hc => by
      have := char_toNat_le_of_le hc
      omega
    simp [hne]
  · have hn := char_toNat_le_of_le h2
    have hne : ¬('A' ≤ c) := fun hc => by
      have := char_toNat_le_of_le hc
      omega
    simp [hne]
  · rcases hsp with ((((h | h) | h) | h) | h) | h <;> subst h <;> decide

theorem kept_of_normalizedChar {c : Char} (h : normalizedChar c = true) :
    isKeptChar c = true := by
  rw [normalizedChar] at h
  rw [isKeptChar]
  simp only [Bool.or_eq_true] at h ⊢
  rcases h with (h | h) | h
  · exact Or.inl (Or.inl (Or.inl h))
  · exact Or.inl (Or.inr h)
  · exact Or.inr h

theorem normalizedChar_of_kept {c : Char} (h1 : isKeptChar c = true)
    (h2 : isUpperAscii c = false) : normalizedChar c = true := by
  rw [isKeptChar] at h1
  rw [normalizedChar]
  simp only [Bool.or_eq_true] at h1 ⊢
  rcases h1 with ((h | h) | h) | h
  · exact Or.inl (Or.inl h)
  · rw [isUpperAscii] at h2
    rw [h] at h2
    cases h2
  · exact Or.inl (Or.inr h)
  · exact Or.inr h

/-! ### Characters produced by alias replacement -/

theorem mem_replaceAllF {pat rep : List Char} :
    ∀ (fuel : Nat) (s : List Char) (c : Char),
      c ∈ replaceAllF pat rep fuel s → c ∈ s ∨ c ∈ rep := by
  intro fuel
  induction fuel with
  | zero => intro s c h; exact Or.inl h
  | succ n ih =>
    intro s c h
    cases s with
    | nil => exact Or.inl h
    | cons a rest =>
      simp only [replaceAllF] at h
      split at h
      · rcases List.mem_append.mp h with h | h
        · exact Or.inr h
        · rcases ih _ _ h with h | h
          · exact Or.inl (List.mem_cons_of_mem _ (List.mem_of_mem_drop h))
          · exact Or.inr h
      · rcases List.mem_cons.mp h with rfl | h
        · exact Or.inl (List.mem_cons_self _ _)
        · rcases ih _ _ h with h | h
          · exact Or.inl (List.mem_cons_of_mem _ h)
          · exact Or.inr h

theorem mem_replaceAll {pat rep s : List Char} {c : Char}
    (h : c ∈ replaceAll pat rep s) : c ∈ s ∨ c ∈ rep := by
  rw [replaceAll] at h
  split at h
  · rcases List.mem_append.mp h with h | h
    · exact Or.inr h
    · obtain ⟨a, ha, hc⟩ := List.mem_flatMap.mp h
      rcases List.mem_cons.mp hc with rfl | hc
      · exact Or.inl ha
      · exact Or.inr hc
  · exact mem_replaceAllF _ _ _ h

theorem mem_alias_fold {A : List (String × String)} :
    ∀ (t : List Char) (c : Char),
      c ∈ A.foldl (fun u ae => replaceAll ae.1.data ae.2.data u) t →
      c ∈ t ∨ ∃ ae ∈ A, c ∈ ae.2.data := by
  induction A with
  | nil => intro t c h; exact Or.inl h
  | cons ae As ih =>
    intro t c h
    rw [List.foldl_cons] at h
    rcases ih _ _ h with h | ⟨ae', hae', hc⟩
    · rcases mem_replaceAll h with h | h
      · exact Or.inl h
      · exact Or.inr ⟨ae, List.mem_cons_self _ _, h⟩
    · exact Or.inr ⟨ae', List.mem_cons_of_mem _ hae', hc⟩

/-! ### Stripping -/

theorem mem_of_mem_stripChars {l : List Char} {c : Char} (h : c ∈ stripChars l) :
    c ∈ l := by
  rw [stripChars, dropTrailingWs, dropLeadingWs] at h
  have h1 := (List.dropWhile_sublist isPySpace).subset (List.mem_reverse.mp h)
  exact (List.dropWhile_sublist isPySpace).subset (List.mem_reverse.mp h1)

theorem dropWhile_dropWhile (p : Char → Bool) (l : List Char) :
    (l.dropWhile p).dropWhile p = l.dropWhile p := by
  induction l with
  | nil => rfl
  | cons a rest ih =>
    rw [List.dropWhile_cons]
    split
    · exact ih
    · rw [List.dropWhile_cons, if_neg (by assumption)]

theorem dropWhile_head_false {p : Char → Bool} {l : List Char} {c : Char}
    {t : List Char} (h : l.dropWhile p = c :: t) : p c = false := by
  induction l with
  | nil => cases h
  | cons a rest ih =>
    rw [List.dropWhile_cons] at h
    split at h
    · exact ih h
    · cases h
      rename_i hn
      exact Bool.eq_false_iff.mpr hn

theorem dropTrailingWs_idem (l : List Char) :
    dropTrailingWs (dropTrailingWs l) = dropTrailingWs l := by
  rw [dropTrailingWs, dropTrailingWs, List.reverse_reverse, dropWhile_dropWhile]

theorem dropTrailingWs_head_eq {y : List Char} {c : Char} {t : List Char}
    (h : dropTrailingWs y = c :: t) : ∃ t', y = c :: t' := by
  rw [dropTrailingWs] at h
  obtain ⟨u, hu⟩ := List.dropWhile_suffix (l := y.reverse) isPySpace
  have hy : y = (c :: t).reverse.reverse ++ u.reverse := by
    have : (u ++ y.reverse.dropWhile isPySpace).reverse = y := by rw [hu, List.reverse_reverse]
    rw [← this, List.reverse_append, h]
    simp
  rw [List.reverse_reverse] at hy
  exact ⟨t ++ u.reverse, by rw [hy]; simp⟩

theorem stripChars_idem (l : List Char) : stripChars (stripChars l) = stripChars l := by
  have hdl : dropLeadingWs (stripChars l) = stripChars l := by
    cases hz : stripChars l with
    | nil => rfl
    | cons c t =>
      rw [stripChars] at hz
      obtain ⟨t', ht'⟩ := dropTrailingWs_head_eq hz
      have hc : isPySpace c = false := dropWhile_head_false (p := isPySpace) ht'
      rw [dropLeadingWs, List.dropWhile_cons, if_neg (by simp [hc])]
  show dropTrailingWs (dropLeadingWs (stripChars l)) = stripChars l
  rw [hdl]
  show dropTrailingWs (dropTrailingWs (dropLeadingWs l)) = stripChars l
  rw [dropTrailingWs_idem]
  rfl

/-! ### The character-set property of normalization -/

theorem normalize_title_chars {A : List (String × String)}
    (hA : ∀ ae ∈ A, ∀ c ∈ ae.2.data, isUpperAscii c = false) (s : String) :
    ∀ c ∈ (normalize_title A s).data, normalizedChar c = true := by
  intro c hc
  have hc' : c ∈ (A.foldl (fun u ae => replaceAll ae.1.data ae.2.data u)
      (s.data.map asciiLower)).filter isKeptChar := mem_of_mem_stripChars hc
  have hkept : isKeptChar c = true := (List.mem_filter.mp hc').2
  have hmem : c ∈ A.foldl (fun u ae => replaceAll ae.1.data ae.2.data u)
      (s.data.map asciiLower) := (List.mem_filter.mp hc').1
  have hnu : isUpperAscii c = false := by
    rcases mem_alias_fold _ _ hmem with h | ⟨ae, hae, hcr⟩
    · obtain ⟨d, _, rfl⟩ := List.mem_map.mp h
      exact asciiLower_not_upper d
    · exact hA ae hae c hcr
  exact normalizedChar_of_kept hkept hnu

/-! ### Normalization is a no-op on clean strings -/

theorem asciiLower_eq_self {c : Char} (h : isUpperAscii c = false) :
    asciiLower c = c := by
  rw [isUpperAscii] at h
  rw [asciiLower, if_neg (by simp [h])]

theorem map_asciiLower_eq_self {l : List Char}
    (h : ∀ c ∈ l, isUpperAscii c = false) : l.map asciiLower = l := by
  induction l with
  | nil => rfl
  | cons a t ih =>
    rw [List.map_cons, asciiLower_eq_self (h a (List.mem_cons_self a t)),
      ih (fun c hc => h c (List.mem_cons_of_mem _ hc))]

theorem replaceAllF_no_occur {pat rep : List Char} :
    ∀ (fuel : Nat) (s : List Char), occursIn pat s = false →
      replaceAllF pat rep fuel s = s := by
  intro fuel
  induction fuel with
  | zero => intro s _; rfl
  | succ n ih =>
    intro s hocc
    cases s with
    | nil => rfl
    | cons a rest =>
      rw [occursIn, Bool.or_eq_false_iff] at hocc
      obtain ⟨hpre, hrest⟩ := hocc
      simp only [replaceAllF]
      rw [if_neg (by simp [hpre]), ih rest hrest]

theorem replaceAll_no_occur {pat rep s : List Char} (hne : pat ≠ [])
    (h : occursIn pat s = false) : replaceAll pat rep s = s := by
  rw [replaceAll, if_neg (by simp [List.isEmpty_iff, hne]),
    replaceAllF_no_occur _ _ h]

theorem alias_fold_no_occur {A : List (String × String)} {t : List Char}
    (hA : ∀ ae ∈ A, ae.1.data ≠ [] ∧ occursIn ae.1.data t = false) :
    A.foldl (fun u ae => replaceAll ae.1.data ae.2.data u) t = t := by
  induction A with
  | nil => rfl
  | cons ae As ih =>
    rw [List.foldl_cons,
      replaceAll_no_occur (hA ae (List.mem_cons_self _ _)).1
        (hA ae (List.mem_cons_self _ _)).2]
    exact ih (fun ae' h' => hA ae' (List.mem_cons_of_mem _ h'))

/-! ### Claim C2, amended theorem -/

/-- C2, amended: with the built-in alias table, the output of `normalize_title`
contains only lower-case ASCII letters, digits and whitespace characters
(runs of whitespace are preserved, not collapsed to single spaces); and
normalization is idempotent on every input whose normalized form contains no
alias key as a substring (it is not idempotent in general, since the expansion
of "dev" contains "dev"). -/
theorem claim2_theorem (s : String) :
    (∀ c ∈ (normalize_title get_default_mappings.aliases s).data,
      normalizedChar c = true) ∧
    ((∀ ae ∈ get_default_mappings.aliases,
        occursIn ae.1.data (normalize_title get_default_mappings.aliases s).data
          = false) →
      normalize_title get_default_mappings.aliases
          (normalize_title get_default_mappings.aliases s) =
        normalize_title get_default_mappings.aliases s) := by
  have hchars := normalize_title_chars (A := get_default_mappings.aliases)
    (by decide) s
  refine ⟨hchars, fun hocc => ?_⟩
  have h1 : (normalize_title get_default_mappings.aliases s).data.map asciiLower =
      (normalize_title get_default_mappings.aliases s).data :=
    map_asciiLower_eq_self (fun c hc => normalizedChar_not_upper (hchars c hc))
  have h2 : (get_default_mappings.aliases).foldl
      (fun u ae => replaceAll ae.1.data ae.2.data u)
      (normalize_title get_default_mappings.aliases s).data =
      (normalize_title get_default_mappings.aliases s).data := by
    apply alias_fold_no_occur
    intro ae hae
    refine ⟨?_, hocc ae hae⟩
    have hae' : ae = ("dev", "developer") ∨ ae = ("eng", "engineer") ∨
        ae = ("mgr", "manager") := by
      simpa [get_default_mappings] using hae
    rcases hae' with rfl | rfl | rfl <;> decide
  have h3 : (normalize_title get_default_mappings.aliases s).data.filter isKeptChar =
      (normalize_title get_default_mappings.aliases s).data :=
    List.filter_eq_self.mpr (fun c hc => kept_of_normalizedChar (hchars c hc))
  have h4 : stripChars (normalize_title get_default_mappings.aliases s).data =
      (normalize_title get_default_mappings.aliases s).data := by
    show stripChars (stripChars _) = (normalize_title get_default_mappings.aliases s).data
    rw [stripChars_idem]
    rfl
  show (⟨stripChars (((get_default_mappings.aliases).foldl
      (fun u ae => replaceAll ae.1.data ae.2.data u)
      ((normalize_title get_default_mappings.aliases s).data.map asciiLower)).filter
        isKeptChar)⟩ : String) =
    normalize_title get_default_mappings.aliases s
  rw [h1, h2, h3, h4]

/-- Witness for C2: a title whose normalized form contains no alias key, on
which a second normalization is the identity. -/
theorem claim2_witness :
    normalize_title get_default_mappings.aliases
        (normalize_title get_default_mappings.aliases "  Growth & Brand Manager!  ") =
      normalize_title get_default_mappings.aliases "  Growth & Brand Manager!  " := by
  have h := claim2_theorem "  Growth & Brand Manager!  "
  exact h.2 (by with_unfolding_all decide)

end Task3
